import Mathlib

/-!
# Verification of the semtag version parser and increment engine

Shallow embedding of `src/main.rs` of the `semtag` repository: the `Version`
struct, `Version::parse`, `Version::increment` and the `Display`
implementation, with strings modelled as `List Char` and the `u32` fields
modelled as `Nat` reduced modulo `2 ^ 32` where Rust arithmetic may wrap.
-/

namespace Semtag

/-- Strings are modelled as lists of characters. -/
abbrev Str := List Char

/-- `2 ^ 32`, the number of values of Rust's `u32`. -/
def U32 : Nat := 2 ^ 32

/-- `2 ^ 64`, the number of values of Rust's `u64` (used by the semver crate's
numeric version fields). -/
def U64 : Nat := 2 ^ 64

/-- The decimal digit character for `d < 10`, as produced by Rust's decimal
formatting. -/
def digitChar : Nat → Char
  | 0 => '0'
  | 1 => '1'
  | 2 => '2'
  | 3 => '3'
  | 4 => '4'
  | 5 => '5'
  | 6 => '6'
  | 7 => '7'
  | 8 => '8'
  | 9 => '9'
  | _ => '?'

/-- Numeric value of a decimal digit character. -/
def digitVal (c : Char) : Nat := c.toNat - 48

/-- Fuelled decimal printer (most-significant digit first).  The fuel only
bounds the recursion depth; `natToStr` always supplies enough. -/
def natToStrAux : Nat → Nat → Str
  | 0, _ => []
  | fuel + 1, n => if n = 0 then [] else natToStrAux fuel (n / 10) ++ [digitChar (n % 10)]

/-- Decimal rendering of a natural number, as produced by Rust's
`format!("{}")` on an unsigned integer. -/
def natToStr (n : Nat) : Str := if n = 0 then ['0'] else natToStrAux n n

/-- Accumulate the numeric value of a digit string (most-significant first). -/
def digitsToNat (s : Str) : Nat := s.foldl (fun a c => a * 10 + digitVal c) 0

/-- Rust's unsigned-integer `from_str` grammar: an optional leading `+`
followed by at least one decimal digit. -/
def parseUnsigned (s : Str) : Option Nat :=
  let t := match s with
    | c :: r => if c = '+' then r else s
    | [] => s
  if t.isEmpty then none
  else if t.all (·.isDigit) then some (digitsToNat t) else none

/-- `str::parse::<u32>` from the source: Rust's unsigned grammar plus the
`u32` range check (overflow is a parse error). -/
def parseU32 (s : Str) : Option Nat :=
  match parseUnsigned s with
  | some n => if n < U32 then some n else none
  | none => none

/-- Split a character list at every occurrence of `c`, exactly like Rust's
`str::split(char)`: `n` separators yield `n + 1` (possibly empty) pieces. -/
def splitCh (c : Char) : Str → List Str
  | [] => [[]]
  | x :: xs =>
    match splitCh c xs with
    | [] => [[]]
    | s :: rest => if x = c then [] :: s :: rest else (x :: s) :: rest

/-- Join pieces with a separator, exactly like Rust's `[&str]::join`. -/
def joinSep (sep : Str) : List Str → Str
  | [] => []
  | [x] => x
  | x :: y :: t => x ++ sep ++ joinSep sep (y :: t)

/-- Characters legal in semver pre-release/build identifiers
(ASCII alphanumerics and hyphen). -/
def identChar (c : Char) : Bool := c.isAlphanum || c = '-'

/-- Semver pre-release identifier validity: non-empty, legal characters, and
an all-numeric identifier has no leading zero. -/
def preIdentOk (s : Str) : Bool :=
  !s.isEmpty && s.all identChar &&
    (if s.all (·.isDigit) then (s == ['0']) || !(s.head? == some '0') else true)

/-- Semver build identifier validity: non-empty with legal characters. -/
def buildIdentOk (s : Str) : Bool := !s.isEmpty && s.all identChar

/-- Consume one numeric version field at the front of `s` per the semver
crate: a non-empty digit run, no leading zero, value within `u64`; returns
the remainder after the digits. -/
def semverNumField (s : Str) : Option Str :=
  let d := s.takeWhile (·.isDigit)
  let r := s.dropWhile (·.isDigit)
  if d.isEmpty then none
  else if d ≠ ['0'] ∧ d.head? = some '0' then none
  else if digitsToNat d < U64 then some r else none

/-- Expect a literal `.` at the front. -/
def expectDot : Str → Option Str
  | c :: r => if c = '.' then some r else none
  | [] => none

/-- What may follow the three numeric fields of a semver version: nothing, a
`-` pre-release (with optional `+` build), or a `+` build section. -/
def semverSuffix (s : Str) : Bool :=
  match s with
  | [] => true
  | c :: r =>
    if c = '-' then
      let pre := r.takeWhile (fun x => !(x == '+'))
      let rest := r.dropWhile (fun x => !(x == '+'))
      (splitCh '.' pre).all preIdentOk &&
        (match rest with
         | [] => true
         | _ :: b => (splitCh '.' b).all buildIdentOk)
    else if c = '+' then (splitCh '.' r).all buildIdentOk
    else false

/-- Modelled from the spec: `is_semver` in the source delegates to the
external semver crate (`semver::Version::parse(s).is_ok()`), whose code is
not part of this repository.  Per §4.1 step 5 of the spec it validates the
full semantic-version grammar: three dot-separated non-negative integers
(no leading zeros, `u64` range), optionally followed by semver
pre-release/build metadata. -/
def isSemver (s : Str) : Bool :=
  match semverNumField s with
  | none => false
  | some r1 =>
    match expectDot r1 with
    | none => false
    | some r2 =>
      match semverNumField r2 with
      | none => false
      | some r3 =>
        match expectDot r3 with
        | none => false
        | some r4 =>
          match semverNumField r4 with
          | none => false
          | some rest => semverSuffix rest

/-- The `Version` struct of the source.  The Rust field `prefix` is called
`pfx` here because `prefix` is reserved syntax in Lean. -/
structure Version where
  pfx : Option Str
  major : Nat
  minor : Nat
  patch : Nat
  label : Option Str
  rc_number : Option Nat
deriving DecidableEq

/-- The `for (index, part) in parts.iter().enumerate()` loop of
`Version::parse`: index of the first segment accepted by `is_semver`. -/
def findSemverIdx : List Str → Option Nat
  | [] => none
  | x :: xs => if isSemver x then some 0 else (findSemverIdx xs).map (· + 1)

/-- The prefix/core/label disambiguation of `Version::parse` (the
`prefix_and_version` triple), keyed on the number of `-`-separated parts. -/
def segmentParts (parts : List Str) : Except Str (Option Str × Str × Option Str) :=
  if 2 < parts.length then
    match findSemverIdx parts with
    | some i =>
        .ok (some (joinSep ['-'] (parts.take i)), parts.getD i [],
             some (joinSep ['-'] (parts.drop (i + 1))))
    | none => .ok (none, [], none)
  else if parts.length = 2 then
    if isSemver (parts.getD 0 []) then .ok (none, parts.getD 0 [], some (parts.getD 1 []))
    else .ok (some (parts.getD 0 []), parts.getD 1 [], none)
  else if parts.length = 1 then
    .ok (none, parts.getD 0 [], none)
  else
    .error "Invalid parts length".toList

/-- `label.strip_prefix("rc.")` followed by `parse::<u32>().ok()` from
`Version::parse`. -/
def rcNumOf (l : Str) : Option Nat :=
  match l with
  | 'r' :: 'c' :: '.' :: rest => parseU32 rest
  | _ => none

/-- The numeric-core step of `Version::parse`: split on `.`, require at
least three parts, parse the first three as `u32`. -/
def coreToNums (vp : List Str) : Except Str (Nat × Nat × Nat) :=
  if vp.length < 3 then .error "Invalid version format".toList
  else
    match parseU32 (vp.getD 0 []) with
    | none => .error "Invalid major version".toList
    | some major =>
      match parseU32 (vp.getD 1 []) with
      | none => .error "Invalid minor version".toList
      | some minor =>
        match parseU32 (vp.getD 2 []) with
        | none => .error "Invalid patch version".toList
        | some patch => .ok (major, minor, patch)

/-- `Version::parse` from the source: split on `-`, disambiguate
prefix/core/label, parse the numeric core, and record the final
`-`-separated part as the label (`parts.last().cloned()`), extracting the
`rc.` counter from it when possible. -/
def parseVersion (s : Str) : Except Str Version :=
  match segmentParts (splitCh '-' s) with
  | .error e => .error e
  | .ok pcl =>
    match coreToNums (splitCh '.' pcl.2.1) with
    | .error e => .error e
    | .ok nums =>
      let lbl := (splitCh '-' s).getLast?
      .ok ⟨pcl.1, nums.1, nums.2.1, nums.2.2, lbl,
           match lbl with
           | some l => rcNumOf l
           | none => none⟩

/-- Error message of the invalid-scope arm of `Version::increment`. -/
def invalidScopeMsg : Str :=
  "Invalid scope. Valid scopes are: major, minor, patch, and option".toList

/-- Error message of the invalid-option arm of `Version::increment`. -/
def invalidOptionMsg : Str :=
  "Invalid option. Valid scopes are: alpha, beta, rc, or just left it empty".toList

/-- The first `match scope` of `Version::increment`: the scope bump.  Note
the source clears `label` in every scope arm but never touches
`rc_number`. -/
def scopeStep (v : Version) (scope : Option Str) : Except Str Version :=
  match scope with
  | some s =>
    if s = "major".toList then
      .ok { v with major := (v.major + 1) % U32, minor := 0, patch := 0, label := none }
    else if s = "minor".toList then
      .ok { v with minor := (v.minor + 1) % U32, patch := 0, label := none }
    else if s = "patch".toList then
      .ok { v with patch := (v.patch + 1) % U32, label := none }
    else .error invalidScopeMsg
  | none => .ok v

/-- The second `match option` of `Version::increment`: the pre-release
option, applied to the result of the scope step. -/
def optionStep (v : Version) (opt : Option Str) : Except Str Version :=
  match opt with
  | some o =>
    if o = "alpha".toList then .ok { v with label := some "alpha".toList, rc_number := none }
    else if o = "beta".toList then .ok { v with label := some "beta".toList, rc_number := none }
    else if o = "rc".toList then
      .ok { v with rc_number := some ((v.rc_number.getD 0 + 1) % U32),
                   label := some ("rc.".toList ++ natToStr ((v.rc_number.getD 0 + 1) % U32)) }
    else .error invalidOptionMsg
  | none => .ok v

/-- `Version::increment` from the source: the scope match runs first and
returns its error before the option match is consulted. -/
def increment (v : Version) (scope opt : Option Str) : Except Str Version :=
  (scopeStep v scope).bind fun w => optionStep w opt

/-- The `Display` implementation from the source:
`{prefix-}major.minor.patch{-label}`, where a label equal to `"rc"` is
rendered as `-rc.<rc_number or 0>`. -/
def renderVersion (v : Version) : Str :=
  let ver := natToStr v.major ++ '.' :: natToStr v.minor ++ '.' :: natToStr v.patch
  let lab :=
    match v.label with
    | some l => if l = "rc".toList then '-' :: ("rc.".toList ++ natToStr (v.rc_number.getD 0))
                else '-' :: l
    | none => []
  let pre :=
    match v.pfx with
    | some p => p ++ ['-']
    | none => []
  pre ++ ver ++ lab

/-- The render contract transcribed from the spec's words (§4.2): emit
`[prefix-]major.minor.patch[-label]` where the prefix, when present, is
followed by a single `-`; a label equal to the release-candidate marker
`rc` is emitted as `-rc.<rcNumber or 0>`; otherwise a present label is
emitted as `-<label>`; otherwise nothing. -/
def renderSpec (v : Version) : Str :=
  (match v.pfx with
   | some p => p ++ ['-']
   | none => []) ++
  (natToStr v.major ++ ['.'] ++ natToStr v.minor ++ ['.'] ++ natToStr v.patch) ++
  (match v.label with
   | some l =>
     if l = "rc".toList then ['-'] ++ "rc".toList ++ ['.'] ++ natToStr (v.rc_number.getD 0)
     else ['-'] ++ l
   | none => [])

deriving instance DecidableEq for Except

/-! ## Helper lemmas about the decimal printer -/

theorem digitChar_isDigit {d : Nat} (h : d < 10) : (digitChar d).isDigit = true := by
  interval_cases d <;> decide

theorem digitChar_ne_dash {d : Nat} (h : d < 10) : digitChar d ≠ '-' := by
  interval_cases d <;> decide

theorem digitVal_digitChar {d : Nat} (h : d < 10) : digitVal (digitChar d) = d := by
  interval_cases d <;> decide

theorem natToStrAux_eq (fuel : Nat) : ∀ n : Nat, n ≤ fuel →
    natToStrAux fuel n = ((Nat.digits 10 n).map digitChar).reverse := by
  induction fuel with
  | zero =>
    intro n hn
    interval_cases n
    simp [natToStrAux]
  | succ fuel ih =>
    intro n hn
    by_cases h0 : n = 0
    · subst h0; simp [natToStrAux]
    · have hdiv : n / 10 ≤ fuel := by
        have : n / 10 < n := Nat.div_lt_self (Nat.pos_of_ne_zero h0) (by norm_num)
        omega
      rw [natToStrAux, if_neg h0, ih _ hdiv,
          Nat.digits_def' (b := 10) (by norm_num) (Nat.pos_of_ne_zero h0)]
      simp

theorem natToStr_eq (n : Nat) (h : n ≠ 0) :
    natToStr n = ((Nat.digits 10 n).map digitChar).reverse := by
  rw [natToStr, if_neg h, natToStrAux_eq n n le_rfl]

theorem natToStr_all_digit (n : Nat) : ∀ c ∈ natToStr n, c.isDigit = true := by
  by_cases h : n = 0
  · subst h; decide
  · rw [natToStr_eq n h]
    intro c hc
    rw [List.mem_reverse, List.mem_map] at hc
    obtain ⟨d, hd, rfl⟩ := hc
    exact digitChar_isDigit (Nat.digits_lt_base (by norm_num) hd)

theorem natToStr_ne_nil (n : Nat) : natToStr n ≠ [] := by
  by_cases h : n = 0
  · subst h; decide
  · rw [natToStr_eq n h]
    simp [Nat.digits_ne_nil_iff_ne_zero.mpr h]

theorem not_mem_natToStr {c : Char} (n : Nat) (hc : c.isDigit = false) : c ∉ natToStr n := by
  intro hmem
  have := natToStr_all_digit n c hmem
  rw [hc] at this
  exact Bool.false_ne_true this

theorem digitChar_ne_zero_char {d : Nat} (h1 : d ≠ 0) (h2 : d < 10) : digitChar d ≠ '0' := by
  interval_cases d <;> first | exact absurd rfl h1 | decide

theorem natToStr_head_ne_zero (n : Nat) (h : n ≠ 0) : (natToStr n).head? ≠ some '0' := by
  rw [natToStr_eq n h]
  have hne : Nat.digits 10 n ≠ [] := Nat.digits_ne_nil_iff_ne_zero.mpr h
  rw [List.head?_reverse, List.getLast?_map, List.getLast?_eq_getLast _ hne]
  have hlast := Nat.getLast_digit_ne_zero 10 h
  have hlt : (Nat.digits 10 n).getLast hne < 10 :=
    Nat.digits_lt_base (by norm_num) (List.getLast_mem hne)
  intro hcontra
  simp only [Option.map_some', Option.some.injEq] at hcontra
  exact digitChar_ne_zero_char hlast hlt hcontra

theorem foldl_digits (L : List Nat) (hL : ∀ d ∈ L, d < 10) (a : Nat) :
    List.foldl (fun x c => x * 10 + digitVal c) a ((L.map digitChar).reverse) =
      a * 10 ^ L.length + Nat.ofDigits 10 L := by
  induction L generalizing a with
  | nil => simp [Nat.ofDigits_nil]
  | cons d L' ih =>
    have hd : d < 10 := hL d (List.mem_cons_self d L')
    have hL' : ∀ x ∈ L', x < 10 := fun x hx => hL x (List.mem_cons_of_mem d hx)
    simp only [List.map_cons, List.reverse_cons, List.foldl_append, List.foldl_cons,
      List.foldl_nil]
    rw [ih hL' a, digitVal_digitChar hd, Nat.ofDigits_cons]
    simp only [List.length_cons, pow_succ]
    ring

theorem digitsToNat_natToStr (n : Nat) : digitsToNat (natToStr n) = n := by
  by_cases h : n = 0
  · subst h; decide
  · rw [natToStr_eq n h, digitsToNat,
      foldl_digits _ (fun d hd => Nat.digits_lt_base (by norm_num) hd) 0]
    simp [Nat.ofDigits_digits]

theorem parseUnsigned_natToStr (n : Nat) : parseUnsigned (natToStr n) = some n := by
  rcases hs : natToStr n with _ | ⟨c, t⟩
  · exact absurd hs (natToStr_ne_nil n)
  · have hc : c.isDigit = true := by
      have := natToStr_all_digit n
      rw [hs] at this
      exact this c (List.mem_cons_self c t)
    have hcp : ¬ (c = '+') := by
      intro h
      subst h
      exact Bool.false_ne_true (hc.symm.trans (by decide)).symm
    have hall : (c :: t).all (·.isDigit) = true := by
      rw [List.all_eq_true]
      intro x hx
      have := natToStr_all_digit n
      rw [hs] at this
      exact this x hx
    rw [parseUnsigned]
    simp only [if_neg hcp, List.isEmpty_cons, hall]
    rw [← hs, digitsToNat_natToStr]
    simp

theorem parseU32_natToStr (n : Nat) (h : n < U32) : parseU32 (natToStr n) = some n := by
  simp [parseU32, parseUnsigned_natToStr, h]

/-! ## Helper lemmas about splitting and joining -/

theorem splitCh_ne_nil (c : Char) (s : Str) : splitCh c s ≠ [] := by
  induction s with
  | nil => simp [splitCh]
  | cons x xs ih =>
    rw [splitCh]
    rcases h : splitCh c xs with _ | ⟨p, rest⟩
    · simp
    · by_cases hx : x = c <;> simp [hx]

theorem splitCh_cons_eq (c x : Char) (xs : Str) (p : Str) (rest : List Str)
    (h : splitCh c xs = p :: rest) :
    splitCh c (x :: xs) = if x = c then [] :: p :: rest else (x :: p) :: rest := by
  rw [splitCh, h]

theorem splitCh_of_not_mem {c : Char} {s : Str} (h : c ∉ s) : splitCh c s = [s] := by
  induction s with
  | nil => rfl
  | cons x xs ih =>
    have hx : x ≠ c := fun hxc => h (hxc ▸ List.mem_cons_self x xs)
    have hxs : c ∉ xs := fun hm => h (List.mem_cons_of_mem x hm)
    rw [splitCh_cons_eq c x xs xs [] (ih hxs), if_neg hx]

theorem splitCh_append (c : Char) (a b : Str) :
    splitCh c (a ++ c :: b) = splitCh c a ++ splitCh c b := by
  induction a with
  | nil =>
    rcases h : splitCh c b with _ | ⟨p, rest⟩
    · exact absurd h (splitCh_ne_nil c b)
    · rw [List.nil_append, splitCh_cons_eq c c b p rest h, if_pos rfl, ← h]
      rfl
  | cons x xs ih =>
    rcases h : splitCh c (xs ++ c :: b) with _ | ⟨p, rest⟩
    · exact absurd h (splitCh_ne_nil _ _)
    · rcases h2 : splitCh c xs with _ | ⟨q, rest2⟩
      · exact absurd h2 (splitCh_ne_nil _ _)
      · rw [List.cons_append, splitCh_cons_eq c x _ p rest h,
            splitCh_cons_eq c x xs q rest2 h2]
        rw [h, h2] at ih
        obtain ⟨rfl, hrest⟩ : p = q ∧ rest = rest2 ++ splitCh c b := by simpa using ih
        by_cases hx : x = c <;> simp [hx, hrest]

theorem joinSep_splitCh (c : Char) (s : Str) : joinSep [c] (splitCh c s) = s := by
  induction s with
  | nil => rfl
  | cons x xs ih =>
    rcases h : splitCh c xs with _ | ⟨p, rest⟩
    · exact absurd h (splitCh_ne_nil c xs)
    · rw [h] at ih
      rw [splitCh_cons_eq c x xs p rest h]
      by_cases hx : x = c
      · subst hx
        rw [if_pos rfl]
        simpa [joinSep] using ih
      · rw [if_neg hx]
        rcases rest with _ | ⟨y, t⟩
        · simp only [joinSep] at ih ⊢
          simp [ih]
        · simp only [joinSep] at ih ⊢
          rw [← ih]
          simp

theorem takeWhile_append_of_all {p : Char → Bool} {l1 l2 : Str}
    (h1 : ∀ x ∈ l1, p x = true) (h2 : ∀ x, l2.head? = some x → p x = false) :
    (l1 ++ l2).takeWhile p = l1 := by
  induction l1 with
  | nil =>
    rcases l2 with _ | ⟨y, t⟩
    · rfl
    · simp [List.takeWhile, h2 y rfl]
  | cons x xs ih =>
    have hx := h1 x (List.mem_cons_self x xs)
    simp only [List.cons_append, List.takeWhile_cons, hx]
    rw [ih (fun y hy => h1 y (List.mem_cons_of_mem x hy))]
    simp

theorem dropWhile_append_of_all {p : Char → Bool} {l1 l2 : Str}
    (h1 : ∀ x ∈ l1, p x = true) (h2 : ∀ x, l2.head? = some x → p x = false) :
    (l1 ++ l2).dropWhile p = l2 := by
  induction l1 with
  | nil =>
    rcases l2 with _ | ⟨y, t⟩
    · rfl
    · simp [List.dropWhile, h2 y rfl]
  | cons x xs ih =>
    have hx := h1 x (List.mem_cons_self x xs)
    simp only [List.cons_append, List.dropWhile_cons, hx]
    rw [ih (fun y hy => h1 y (List.mem_cons_of_mem x hy))]
    simp

/-! ## The classifier accepts every rendered numeric core -/

theorem semverNumField_natToStr (n : Nat) (hn : n < U64) (r : Str)
    (hr : ∀ x, r.head? = some x → x.isDigit = false) :
    semverNumField (natToStr n ++ r) = some r := by
  rw [semverNumField]
  rw [takeWhile_append_of_all (natToStr_all_digit n) hr,
      dropWhile_append_of_all (natToStr_all_digit n) hr]
  simp only [List.isEmpty_iff]
  rw [if_neg (natToStr_ne_nil n)]
  have hlead : ¬ (natToStr n ≠ ['0'] ∧ (natToStr n).head? = some '0') := by
    rintro ⟨hne, hhead⟩
    by_cases h0 : n = 0
    · subst h0; exact hne rfl
    · exact natToStr_head_ne_zero n h0 hhead
  rw [if_neg hlead, digitsToNat_natToStr, if_pos hn]

theorem expectDot_cons (r : Str) : expectDot ('.' :: r) = some r := by
  simp [expectDot]

theorem isSemver_core (M m p : Nat) (hM : M < U64) (hm : m < U64) (hp : p < U64) :
    isSemver (natToStr M ++ '.' :: (natToStr m ++ '.' :: natToStr p)) = true := by
  have hdot : ∀ (t : Str) x, (('.' :: t : Str)).head? = some x → x.isDigit = false := by
    intro t x hx
    simp only [List.head?_cons, Option.some.injEq] at hx
    subst hx; decide
  have hnil : ∀ x, ([] : Str).head? = some x → x.isDigit = false := by
    intro x hx; simp at hx
  have h1 := semverNumField_natToStr M hM ('.' :: (natToStr m ++ '.' :: natToStr p)) (hdot _)
  have h2 := semverNumField_natToStr m hm ('.' :: natToStr p) (hdot _)
  have h3 : semverNumField (natToStr p) = some [] := by
    simpa using semverNumField_natToStr p hp [] hnil
  simp only [isSemver, h1, h2, h3, expectDot_cons]
  rfl

/-! ## Helper lemmas about the segment scan -/

theorem findSemverIdx_append (pp : List Str) (hpp : ∀ q ∈ pp, isSemver q = false)
    (a : Str) (r : List Str) (ha : isSemver a = true) :
    findSemverIdx (pp ++ a :: r) = some pp.length := by
  induction pp with
  | nil => simp [findSemverIdx, ha]
  | cons q qs ih =>
    have hq : isSemver q = false := hpp q (List.mem_cons_self q qs)
    have hqs : ∀ x ∈ qs, isSemver x = false := fun x hx => hpp x (List.mem_cons_of_mem q hx)
    simp [findSemverIdx, hq, ih hqs]

theorem getD_append_length (pp r : List Str) (d : Str) :
    (pp ++ r).getD pp.length d = r.getD 0 d := by
  induction pp with
  | nil => rfl
  | cons q qs ih => simpa using ih

theorem drop_append_length_succ (pp r : List Str) :
    (pp ++ r).drop (pp.length + 1) = r.drop 1 := by
  induction pp with
  | nil => rfl
  | cons q qs ih => simp [ih]

theorem getLast?_ne_none {α : Type} {l : List α} (h : l ≠ []) : l.getLast? ≠ none := by
  induction l with
  | nil => exact absurd rfl h
  | cons x t ih =>
    rcases t with _ | ⟨y, u⟩
    · simp
    · rw [List.getLast?_cons_cons]
      exact ih (by simp)

theorem getLast?_append_pair (pp : List Str) (a b : Str) :
    (pp ++ [a, b]).getLast? = some b := by
  induction pp with
  | nil => rfl
  | cons q qs ih =>
    rw [List.cons_append, List.getLast?_cons]
    simp only [ih]
    rcases hqs : qs ++ [a, b] with _ | ⟨y, t⟩
    · exact absurd hqs (by simp)
    · rw [hqs] at ih
      simp [hqs, ih]

/-- The two-segment branch of the disambiguation, first segment a semver
core. -/
theorem segmentParts_pair (a b : Str) (ha : isSemver a = true) :
    segmentParts [a, b] = .ok (none, a, some b) := by
  rw [segmentParts]
  simp [ha]

/-- The scan branch of the disambiguation: a non-empty run of non-semver
segments, then the core, then a single label segment. -/
theorem segmentParts_scan (pp : List Str) (a b : Str)
    (hpp : ∀ q ∈ pp, isSemver q = false) (hpne : pp ≠ [])
    (ha : isSemver a = true) :
    segmentParts (pp ++ [a, b]) = .ok (some (joinSep ['-'] pp), a, some b) := by
  have hlen : 2 < (pp ++ [a, b]).length := by
    rcases pp with _ | ⟨x, t⟩
    · exact absurd rfl hpne
    · simp
  rw [segmentParts, if_pos hlen, findSemverIdx_append pp hpp a [b] ha]
  simp only [List.take_left, getD_append_length, drop_append_length_succ]
  rfl

theorem coreToNums_three (a b c : Str) (x y z : Nat)
    (hx : parseU32 a = some x) (hy : parseU32 b = some y) (hz : parseU32 c = some z) :
    coreToNums [a, b, c] = .ok (x, y, z) := by
  rw [coreToNums]
  simp [hx, hy, hz]

/-! ## Inversion lemmas for the increment engine -/

theorem scopeStep_invalid (v : Version) (s : Str)
    (h1 : s ≠ "major".toList) (h2 : s ≠ "minor".toList) (h3 : s ≠ "patch".toList) :
    scopeStep v (some s) = .error invalidScopeMsg := by
  simp only [scopeStep]
  rw [if_neg h1, if_neg h2, if_neg h3]

theorem optionStep_invalid (v : Version) (o : Str)
    (h1 : o ≠ "alpha".toList) (h2 : o ≠ "beta".toList) (h3 : o ≠ "rc".toList) :
    optionStep v (some o) = .error invalidOptionMsg := by
  simp only [optionStep]
  rw [if_neg h1, if_neg h2, if_neg h3]

theorem scopeStep_pfx {v : Version} {sc : Option Str} {w : Version}
    (h : scopeStep v sc = .ok w) : w.pfx = v.pfx := by
  rcases sc with _ | s
  · simp only [scopeStep] at h
    cases h
    rfl
  · simp only [scopeStep] at h
    split_ifs at h <;> cases h <;> rfl

theorem optionStep_pfx {v : Version} {opt : Option Str} {w : Version}
    (h : optionStep v opt = .ok w) : w.pfx = v.pfx := by
  rcases opt with _ | o
  · simp only [optionStep] at h
    cases h
    rfl
  · simp only [optionStep] at h
    split_ifs at h <;> cases h <;> rfl

/-! ## The claims -/

/-- C1, counterexample: the claim asserts that the scope step clears
`rcNumber`, so that `increment` with scope `patch` and option `rc` on a
version whose `rcNumber` is 3 yields `rcNumber` 1.  On the code the scope
arms clear only `label`, so the same call yields `rcNumber` 4. -/
theorem C1_counterexample :
    (increment ⟨none, 1, 2, 3, some "rc.3".toList, some 3⟩
        (some "patch".toList) (some "rc".toList)).map Version.rc_number
      = .ok (some 4) ∧ (some 4 : Option Nat) ≠ some 1 := by
  constructor
  · decide
  · decide

/-- C1 (amended): the scope step of `increment` follows the numeric
transition table (Major bumps major and zeroes minor and patch; Minor bumps
minor and zeroes patch; Patch bumps patch) and clears `label` — but it does
NOT clear `rcNumber`, which persists into the option step; consequently
`increment` with scope `patch` and option `rc` continues the old counter:
on a version with `rcNumber` `k` it yields `rcNumber` `(k + 1) % 2^32`
(so 4, not 1, when `rcNumber` was 3). -/
theorem C1_scope_table_amended (v : Version)
    (hM : v.major + 1 < U32) (hm : v.minor + 1 < U32) (hp : v.patch + 1 < U32) :
    increment v (some "major".toList) none
        = .ok { v with major := v.major + 1, minor := 0, patch := 0, label := none } ∧
    increment v (some "minor".toList) none
        = .ok { v with minor := v.minor + 1, patch := 0, label := none } ∧
    increment v (some "patch".toList) none
        = .ok { v with patch := v.patch + 1, label := none } ∧
    (increment v (some "patch".toList) (some "rc".toList)).map Version.rc_number
        = .ok (some ((v.rc_number.getD 0 + 1) % U32)) := by
  refine ⟨?_, ?_, ?_, ?_⟩
  · rw [← Nat.mod_eq_of_lt hM]
    rfl
  · rw [← Nat.mod_eq_of_lt hm]
    rfl
  · rw [← Nat.mod_eq_of_lt hp]
    rfl
  · rfl

/-- C1 witness: the amended scope table evaluated on the concrete version
`1.2.3-rc.3` (with `rcNumber` 3): a patch bump leaves `rcNumber` at 3, and
a patch bump with option `rc` moves it to 4. -/
theorem C1_scope_table_witness :
    increment ⟨none, 1, 2, 3, some "rc.3".toList, some 3⟩ (some "patch".toList) none
        = .ok ⟨none, 1, 2, 4, none, some 3⟩ ∧
    (increment ⟨none, 1, 2, 3, some "rc.3".toList, some 3⟩
        (some "patch".toList) (some "rc".toList)).map Version.rc_number
        = .ok (some 4) := by
  have h := C1_scope_table_amended ⟨none, 1, 2, 3, some "rc.3".toList, some 3⟩
    (by decide) (by decide) (by decide)
  exact ⟨h.2.2.1, h.2.2.2⟩

/-- C2, counterexample: the claim asserts `parse("1.2.3")` yields
`label = None`; on the code `label` is always the last `-`-separated
segment of the input, here `Some "1.2.3"`. -/
theorem C2_counterexample :
    (parseVersion "1.2.3".toList).map Version.label = .ok (some "1.2.3".toList) ∧
    some "1.2.3".toList ≠ (none : Option Str) := by
  constructor
  · decide
  · decide

/-- C2 (amended): `parse("1.2.3")` yields prefix `None`, major 1, minor 2,
patch 3, `rcNumber` `None` — and `label = Some "1.2.3"` (the whole input,
its last `-`-segment), not `None`; `parse("prod-2.0.0-rc.3")` yields
prefix `"prod"`, major 2, minor 0, patch 0, `rcNumber` 3 — and
`label = Some "rc.3"` (the full final segment), not `Some "rc"`. -/
theorem C2_parse_scenarios_amended :
    parseVersion "1.2.3".toList = .ok ⟨none, 1, 2, 3, some "1.2.3".toList, none⟩ ∧
    parseVersion "prod-2.0.0-rc.3".toList
      = .ok ⟨some "prod".toList, 2, 0, 0, some "rc.3".toList, some 3⟩ := by
  constructor
  · decide
  · decide

/-- C4: applying a valid scope and a valid option in one `increment` call
equals applying the scope alone and then the option alone in two calls. -/
theorem C4_scope_then_option_compose (v : Version) (s o : Str)
    (hs : s = "major".toList ∨ s = "minor".toList ∨ s = "patch".toList)
    (ho : o = "alpha".toList ∨ o = "beta".toList ∨ o = "rc".toList) :
    increment v (some s) (some o) =
      (increment v (some s) none).bind fun w => increment w none (some o) := by
  rcases hs with rfl | rfl | rfl <;> rcases ho with rfl | rfl | rfl <;> rfl

/-- C4 witness: the composition law evaluated at `prod-2.0.0-rc.3` with
scope `major` and option `rc`. -/
theorem C4_scope_then_option_witness :
    increment ⟨some "prod".toList, 2, 0, 0, some "rc.3".toList, some 3⟩
        (some "major".toList) (some "rc".toList) =
      (increment ⟨some "prod".toList, 2, 0, 0, some "rc.3".toList, some 3⟩
          (some "major".toList) none).bind
        fun w => increment w none (some "rc".toList) :=
  C4_scope_then_option_compose _ _ _ (Or.inl rfl) (Or.inr (Or.inr rfl))

/-- C5: `increment` with no scope and option `rc` sets `rcNumber` to the
previous counter (0 if absent) plus one and sets the label to the
release-candidate marker with that counter (`rc.<n>`); repeated calls
therefore step the counter 1, 2, 3, … starting from 1 when it was absent. -/
theorem C5_rc_counter (v : Version) (h : v.rc_number.getD 0 + 1 < U32) :
    increment v none (some "rc".toList) =
      .ok { v with rc_number := some (v.rc_number.getD 0 + 1),
                   label := some ("rc.".toList ++ natToStr (v.rc_number.getD 0 + 1)) } := by
  rw [← Nat.mod_eq_of_lt h]
  rfl

/-- C5 witness: on `prod-2.0.0-rc.3` the counter moves to 4, and on a
version with no counter it starts at 1. -/
theorem C5_rc_counter_witness :
    increment ⟨some "prod".toList, 2, 0, 0, some "rc.3".toList, some 3⟩ none
        (some "rc".toList)
      = .ok ⟨some "prod".toList, 2, 0, 0, some "rc.4".toList, some 4⟩ ∧
    increment ⟨none, 1, 2, 3, some "1.2.3".toList, none⟩ none (some "rc".toList)
      = .ok ⟨none, 1, 2, 3, some "rc.1".toList, some 1⟩ := by
  constructor
  · exact C5_rc_counter ⟨some "prod".toList, 2, 0, 0, some "rc.3".toList, some 3⟩ (by decide)
  · exact C5_rc_counter ⟨none, 1, 2, 3, some "1.2.3".toList, none⟩ (by decide)

/-- C6: a scope string outside `{major, minor, patch}` makes `increment`
fail with the invalid-scope error (whatever the option argument is), and —
with the scope argument absent or valid — an option string outside
`{alpha, beta, rc}` makes it fail with the invalid-option error; `increment`
never mutates its input, so the original version is unchanged in both
cases. -/
theorem C6_invalid_tokens (v : Version) :
    (∀ s, s ∉ ["major".toList, "minor".toList, "patch".toList] →
      ∀ o, increment v (some s) o = .error invalidScopeMsg) ∧
    (∀ sc, (sc = none ∨ sc = some "major".toList ∨ sc = some "minor".toList ∨
        sc = some "patch".toList) →
      ∀ o, o ∉ ["alpha".toList, "beta".toList, "rc".toList] →
        increment v sc (some o) = .error invalidOptionMsg) := by
  constructor
  · intro s hs o
    simp only [List.mem_cons, List.not_mem_nil, or_false, not_or] at hs
    rw [increment, scopeStep_invalid v s hs.1 hs.2.1 hs.2.2]
    rfl
  · intro sc hsc o ho
    simp only [List.mem_cons, List.not_mem_nil, or_false, not_or] at ho
    have hopt : ∀ w : Version, optionStep w (some o) = .error invalidOptionMsg :=
      fun w => optionStep_invalid w o ho.1 ho.2.1 ho.2.2
    rcases hsc with rfl | rfl | rfl | rfl
    · rw [increment]
      exact hopt v
    all_goals rw [increment]
    all_goals exact hopt _

/-- C6 witness: the invalid tokens of the spec's scenario, evaluated on
`prod-2.0.0-rc.3`: scope `"bogus"` gives the invalid-scope error; option
`"bogus"` (with no scope) gives the invalid-option error. -/
theorem C6_invalid_tokens_witness :
    increment ⟨some "prod".toList, 2, 0, 0, some "rc.3".toList, some 3⟩
        (some "bogus".toList) none = .error invalidScopeMsg ∧
    increment ⟨some "prod".toList, 2, 0, 0, some "rc.3".toList, some 3⟩
        none (some "bogus".toList) = .error invalidOptionMsg := by
  have h := C6_invalid_tokens ⟨some "prod".toList, 2, 0, 0, some "rc.3".toList, some 3⟩
  exact ⟨h.1 "bogus".toList (by decide) none, h.2 none (Or.inl rfl) "bogus".toList (by decide)⟩

/-- C10: `increment` never modifies the prefix field: whenever it returns
`Ok`, the result's prefix equals the input's prefix. -/
theorem C10_prefix_frame (v : Version) (sc o : Option Str) (w : Version)
    (h : increment v sc o = .ok w) : w.pfx = v.pfx := by
  rw [increment] at h
  rcases hsc : scopeStep v sc with e | u
  · rw [hsc] at h
    simp only [Except.bind] at h
    exact Except.noConfusion h
  · rw [hsc] at h
    simp only [Except.bind] at h
    exact (optionStep_pfx h).trans (scopeStep_pfx hsc)

/-- C10 witness: prefix preservation evaluated on `prod-2.0.0-rc.3` with a
major bump and option `rc` (whose result is `prod-3.0.0-rc.4`, the old
counter surviving the bump). -/
theorem C10_prefix_frame_witness :
    (⟨some "prod".toList, 3, 0, 0, some "rc.4".toList, some 4⟩ : Version).pfx =
      (⟨some "prod".toList, 2, 0, 0, some "rc.3".toList, some 3⟩ : Version).pfx :=
  C10_prefix_frame ⟨some "prod".toList, 2, 0, 0, some "rc.3".toList, some 3⟩
    (some "major".toList) (some "rc".toList)
    ⟨some "prod".toList, 3, 0, 0, some "rc.4".toList, some 4⟩ (by decide)

/-- C8: `render` is total (a total Lean function, with no error path) and
agrees with the spec's format `[prefix-]major.minor.patch[-label]`: a
present prefix is followed by one `-`; a label equal to the
release-candidate marker `rc` is emitted as `-rc.<rcNumber or 0>`; any
other present label as `-<label>`; a missing label emits nothing. -/
theorem C8_render_total (v : Version) : renderVersion v = renderSpec v := by
  rcases v with ⟨pf, M, m, pa, lb, rc⟩
  rcases pf with _ | p <;> rcases lb with _ | l <;>
    simp only [renderVersion, renderSpec] <;>
    [skip; split; skip; split] <;>
    simp [List.append_assoc]

/-- C7: whenever the numeric-core segment selected by the parser's
disambiguation splits on `.` into fewer than three parts, `parse` fails
with the missing-component error (`Invalid version format`); and when a
core part among the first three is not parseable as an unsigned 32-bit
integer, `parse` fails with the error naming the corresponding field
(major, then minor, then patch, in order of first failure). -/
theorem C7_parse_errors (s : Str) (pf : Option Str) (core : Str) (lb : Option Str)
    (hseg : segmentParts (splitCh '-' s) = .ok (pf, core, lb)) :
    ((splitCh '.' core).length < 3 →
      parseVersion s = .error "Invalid version format".toList) ∧
    (¬ (splitCh '.' core).length < 3 →
      parseU32 ((splitCh '.' core).getD 0 []) = none →
      parseVersion s = .error "Invalid major version".toList) ∧
    (¬ (splitCh '.' core).length < 3 →
      (∃ x, parseU32 ((splitCh '.' core).getD 0 []) = some x) →
      parseU32 ((splitCh '.' core).getD 1 []) = none →
      parseVersion s = .error "Invalid minor version".toList) ∧
    (¬ (splitCh '.' core).length < 3 →
      (∃ x, parseU32 ((splitCh '.' core).getD 0 []) = some x) →
      (∃ y, parseU32 ((splitCh '.' core).getD 1 []) = some y) →
      parseU32 ((splitCh '.' core).getD 2 []) = none →
      parseVersion s = .error "Invalid patch version".toList) := by
  have hparse : ∀ e, coreToNums (splitCh '.' core) = .error e →
      parseVersion s = .error e := by
    intro e he
    simp only [parseVersion, hseg, he]
  refine ⟨?_, ?_, ?_, ?_⟩
  · intro hlen
    refine hparse _ ?_
    rw [coreToNums, if_pos hlen]
  · intro hlen h0
    refine hparse _ ?_
    rw [coreToNums, if_neg hlen]
    simp only [h0]
  · intro hlen h0 h1
    obtain ⟨x, hx⟩ := h0
    refine hparse _ ?_
    rw [coreToNums, if_neg hlen]
    simp only [hx, h1]
  · intro hlen h0 h1 h2
    obtain ⟨x, hx⟩ := h0
    obtain ⟨y, hy⟩ := h1
    refine hparse _ ?_
    rw [coreToNums, if_neg hlen]
    simp only [hx, hy, h2]

/-- C7 witness: `parse("1.2")` hits the missing-component error, and
`parse("x.2.3")` hits the major-version error. -/
theorem C7_parse_errors_witness :
    parseVersion "1.2".toList = .error "Invalid version format".toList ∧
    parseVersion "x.2.3".toList = .error "Invalid major version".toList := by
  constructor
  · exact (C7_parse_errors "1.2".toList none "1.2".toList none (by decide)).1 (by decide)
  · exact (C7_parse_errors "x.2.3".toList none "x.2.3".toList none (by decide)).2.1
      (by decide) (by decide)

/-- C9: on every successful parse, the resulting label is `Some` of the
final `-`-separated segment of the input (the whole input when it contains
no `-`); in particular the label is never `None` on a successful parse. -/
theorem C9_label_last_segment (s : Str) (v : Version) (h : parseVersion s = .ok v) :
    v.label = (splitCh '-' s).getLast? ∧ v.label ≠ none ∧
      ('-' ∉ s → v.label = some s) := by
  have hlabel : v.label = (splitCh '-' s).getLast? := by
    simp only [parseVersion] at h
    split at h
    · exact Except.noConfusion h
    · split at h
      · exact Except.noConfusion h
      · cases h
        rfl
  refine ⟨hlabel, ?_, ?_⟩
  · rw [hlabel]
    exact getLast?_ne_none (splitCh_ne_nil '-' s)
  · intro hnd
    rw [hlabel, splitCh_of_not_mem hnd]
    rfl

/-- C3, counterexample: round-trip closure fails on the code: for the plain
version `1.2.3` (label `None`), `parse(render(v))` succeeds but sets
`label = Some "1.2.3"`, so it does not equal `v` field-for-field. -/
theorem C3_counterexample :
    parseVersion (renderVersion ⟨none, 1, 2, 3, none, none⟩)
      ≠ .ok ⟨none, 1, 2, 3, none, none⟩ := by decide

/-- C3 (amended): `parse(render(v)) = v` holds exactly on the parse-stable
versions, not on all of them: it requires `label = Some l` with `l` free of
`-` (parse stores only the final dash-segment and never `None`), `l ≠ "rc"`
(that label re-renders with an appended counter), `rcNumber` equal to the
`rc.`-counter parse of `l`, numeric fields within `u32`, and a prefix that
is absent or contains no dash-segment classified as a bare semver. -/
theorem C3_roundtrip_amended (v : Version) (l : Str)
    (hM : v.major < U32) (hm : v.minor < U32) (hp : v.patch < U32)
    (hl : v.label = some l) (hnd : '-' ∉ l) (hrc : l ≠ "rc".toList)
    (hn : v.rc_number = rcNumOf l)
    (hpfx : ∀ q, v.pfx = some q → ∀ x ∈ splitCh '-' q, isSemver x = false) :
    parseVersion (renderVersion v) = .ok v := by
  rcases v with ⟨pf, M, m, pa, lb, rc⟩
  obtain rfl : lb = some l := hl
  obtain rfl : rc = rcNumOf l := hn
  set core : Str := natToStr M ++ '.' :: (natToStr m ++ '.' :: natToStr pa) with hcore
  have hU : U32 < U64 := by norm_num [U32, U64]
  have hdot_n : ∀ n : Nat, '.' ∉ natToStr n := fun n => not_mem_natToStr n (by decide)
  have hdash_n : ∀ n : Nat, '-' ∉ natToStr n := fun n => not_mem_natToStr n (by decide)
  have hdashCore : '-' ∉ core := by
    rw [hcore]
    intro hmem
    rcases List.mem_append.mp hmem with h | h
    · exact hdash_n M h
    · rcases List.mem_cons.mp h with h | h
      · exact absurd h (by decide)
      · rcases List.mem_append.mp h with h | h
        · exact hdash_n m h
        · rcases List.mem_cons.mp h with h | h
          · exact absurd h (by decide)
          · exact hdash_n pa h
  have hsem : isSemver core = true :=
    isSemver_core M m pa (lt_trans hM hU) (lt_trans hm hU) (lt_trans hp hU)
  have hvp : splitCh '.' core = [natToStr M, natToStr m, natToStr pa] := by
    rw [hcore, splitCh_append '.' (natToStr M) (natToStr m ++ '.' :: natToStr pa),
        splitCh_append '.' (natToStr m) (natToStr pa),
        splitCh_of_not_mem (hdot_n M), splitCh_of_not_mem (hdot_n m),
        splitCh_of_not_mem (hdot_n pa)]
    rfl
  have hnums : coreToNums (splitCh '.' core) = .ok (M, m, pa) := by
    rw [hvp]
    exact coreToNums_three _ _ _ M m pa (parseU32_natToStr M hM)
      (parseU32_natToStr m hm) (parseU32_natToStr pa hp)
  rcases pf with _ | q
  · have hrender : renderVersion ⟨none, M, m, pa, some l, rcNumOf l⟩ = core ++ '-' :: l := by
      simp only [renderVersion]
      rw [if_neg hrc]
      simp [hcore, List.append_assoc]
    have hsplit : splitCh '-' (core ++ '-' :: l) = [core, l] := by
      rw [splitCh_append '-' core l, splitCh_of_not_mem hdashCore, splitCh_of_not_mem hnd]
      rfl
    rw [hrender]
    simp only [parseVersion, hsplit, segmentParts_pair core l hsem, hnums]
    rfl
  · have hq := hpfx q rfl
    have hqne := splitCh_ne_nil '-' q
    have hrender : renderVersion ⟨some q, M, m, pa, some l, rcNumOf l⟩
        = q ++ '-' :: (core ++ '-' :: l) := by
      simp only [renderVersion]
      rw [if_neg hrc]
      simp [hcore, List.append_assoc]
    have hsplit : splitCh '-' (q ++ '-' :: (core ++ '-' :: l))
        = splitCh '-' q ++ [core, l] := by
      rw [splitCh_append '-' q (core ++ '-' :: l),
          splitCh_append '-' core l, splitCh_of_not_mem hdashCore, splitCh_of_not_mem hnd]
      rfl
    have hseg : segmentParts (splitCh '-' q ++ [core, l]) = .ok (some q, core, some l) := by
      have hscan := segmentParts_scan (splitCh '-' q) core l hq hqne hsem
      rwa [joinSep_splitCh '-' q] at hscan
    rw [hrender]
    simp only [parseVersion, hsplit, hseg, hnums, getLast?_append_pair]

/-- C3 witness: the amended round trip evaluated at the concrete version
`prod-2.0.0-rc.3` (prefix `"prod"`, label `"rc.3"`, counter 3). -/
theorem C3_roundtrip_witness :
    parseVersion (renderVersion ⟨some "prod".toList, 2, 0, 0, some "rc.3".toList, some 3⟩)
      = .ok ⟨some "prod".toList, 2, 0, 0, some "rc.3".toList, some 3⟩ :=
  C3_roundtrip_amended _ "rc.3".toList (by decide) (by decide) (by decide) rfl
    (by decide) (by decide) (by decide)
    (by intro q hq x hx
        obtain rfl : q = "prod".toList := (Option.some.inj hq).symm
        revert x hx
        decide)

/-- C9 witness: the label invariant evaluated on `prod-2.0.0-rc.3`, whose
parse succeeds with label `Some "rc.3"` — the final dash-segment. -/
theorem C9_label_last_segment_witness :
    (some "rc.3".toList : Option Str) =
        (splitCh '-' "prod-2.0.0-rc.3".toList).getLast? ∧
      (some "rc.3".toList : Option Str) ≠ none ∧
      ('-' ∉ "prod-2.0.0-rc.3".toList →
        (some "rc.3".toList : Option Str) = some "prod-2.0.0-rc.3".toList) :=
  C9_label_last_segment "prod-2.0.0-rc.3".toList
    ⟨some "prod".toList, 2, 0, 0, some "rc.3".toList, some 3⟩ (by decide)

end Semtag
